import Mathlib

/-!
Shallow embedding of `DataLineageMiddleware` from
`src/fireflyframework_genai_data/middleware/lineage.py`.

Python values stored in the context metadata are modelled by `Value`
(integers and strings are the only shapes the middleware itself writes or
inspects).  The metadata dict is an association list with dict-style
lookup/assignment/pop.  `time.monotonic_ns()` and `uuid.uuid4().hex` are
external inputs, so they are passed to the operations as explicit
arguments.  Python float division `(now - start) / 1_000_000` is modelled
exactly over `ℚ`.  The one runtime error reachable inside `after_run`
(subtracting a truthy non-integer `lineage_start_ns` from an integer) is
modelled by `Except PyErr`.
-/

/-- Python values that can sit in the context metadata mapping. -/
inductive Value where
  | vNat (n : Nat)
  | vStr (s : String)
deriving DecidableEq, Repr

/-- Python truthiness for the values above: `0` and `""` are falsy. -/
def pyTruthy : Value → Bool
  | .vNat n => n != 0
  | .vStr s => s != ""

/-- Runtime errors reachable in the embedded code. -/
inductive PyErr where
  | typeError
deriving DecidableEq, Repr

/-- A string-keyed metadata mapping (Python dict), as an association list. -/
abbrev Metadata : Type := List (String × Value)

/-- Dict lookup: `m.get(k)` / `m[k]`, `none` when the key is absent. -/
def mget : Metadata → String → Option Value
  | [], _ => none
  | (k, v) :: rest, key => if k = key then some v else mget rest key

/-- Remove every entry for a key (a dict holds at most one). -/
def mdel : Metadata → String → Metadata
  | [], _ => []
  | (k, v) :: rest, key => if k = key then mdel rest key else (k, v) :: mdel rest key

/-- Dict assignment `m[k] = v`. -/
def mset (m : Metadata) (key : String) (v : Value) : Metadata :=
  mdel m key ++ [(key, v)]

/-- Dict `m.pop(k, None)`: the popped value (if any) and the remaining dict. -/
def mpop (m : Metadata) (key : String) : Option Value × Metadata :=
  (mget m key, mdel m key)

/-- The slice of `MiddlewareContext` the middleware touches: `agent_name`,
`method` and the mutable `metadata` dict. -/
structure Context where
  agent_name : String
  method : String
  metadata : Metadata
deriving DecidableEq, Repr

/-- One entry of the lineage log, as built in `after_run`. -/
structure LineageRecord where
  lineage_id : Option Value
  agent_name : String
  method : String
  elapsed_ms : Option ℚ
  has_result : Bool
deriving DecidableEq, Repr

/-- The middleware object: `__init__` gives it only the `_records` list. -/
structure Middleware where
  _records : List LineageRecord
deriving DecidableEq, Repr

/-- A freshly constructed middleware: `self._records = []`. -/
def initMiddleware : Middleware := ⟨[]⟩

/-- The `records` property returns a copy of `self._records`; on immutable
values the copy is the value itself (aliasing is treated separately in the
heap model below). -/
def records (m : Middleware) : List LineageRecord := m._records

/-- Embeds `before_run`: writes `lineage_id` (the fresh uuid hex),
`lineage_agent` (the context's agent name) and `lineage_start_ns` (the
current monotonic clock value) into the context metadata.  It does not
touch the middleware state at all. -/
def before_run (context : Context) (freshId : String) (now : Nat) : Context :=
  { context with
      metadata :=
        mset (mset (mset context.metadata "lineage_id" (.vStr freshId))
            "lineage_agent" (.vStr context.agent_name))
          "lineage_start_ns" (.vNat now) }

/-- Embeds the expression
`(time.monotonic_ns() - start_ns) / 1_000_000 if start_ns else None`:
a falsy popped value gives `None`; a truthy integer gives the float
quotient (modelled in `ℚ`); a truthy non-integer makes the subtraction
raise `TypeError`. -/
def elapsedOf (startv : Option Value) (now : Nat) : Except PyErr (Option ℚ) :=
  match startv with
  | none => .ok none
  | some v =>
      if pyTruthy v then
        match v with
        | .vNat s => .ok (some (((now : ℚ) - (s : ℚ)) / 1000000))
        | .vStr _ => .error .typeError
      else .ok none

/-- Embeds `after_run`: pops `lineage_start_ns`, computes the elapsed time,
builds the record (reading `lineage_id` with `get`, which does not remove
it), appends it to `self._records` and returns `result` unchanged. -/
def after_run (m : Middleware) (context : Context) (result : Option Value)
    (now : Nat) : Except PyErr (Middleware × Context × Option Value) :=
  let popped := mpop context.metadata "lineage_start_ns"
  match elapsedOf popped.1 now with
  | .error e => .error e
  | .ok elapsed =>
      let record : LineageRecord :=
        { lineage_id := mget popped.2 "lineage_id"
          agent_name := context.agent_name
          method := context.method
          elapsed_ms := elapsed
          has_result := result.isSome }
      .ok (⟨m._records ++ [record]⟩, { context with metadata := popped.2 }, result)

/-! Basic lemmas about the metadata operations. -/

theorem mget_mdel_self (m : Metadata) (k : String) : mget (mdel m k) k = none := by
  induction m with
  | nil => rfl
  | cons p rest ih =>
      obtain ⟨k', v⟩ := p
      by_cases h : k' = k
      · simp [mdel, h, ih]
      · simp [mdel, mget, h, ih]

theorem mget_mdel_ne (m : Metadata) (k k' : String) (h : k' ≠ k) :
    mget (mdel m k) k' = mget m k' := by
  induction m with
  | nil => rfl
  | cons p rest ih =>
      obtain ⟨k₀, v⟩ := p
      by_cases h₀ : k₀ = k
      · subst h₀
        simp [mdel, mget, Ne.symm h, ih]
      · by_cases h₁ : k₀ = k'
        · simp [mdel, mget, h₀, h₁, h]
        · simp [mdel, mget, h₀, h₁, ih]

theorem mget_append (a b : Metadata) (k : String) :
    mget (a ++ b) k = match mget a k with | some v => some v | none => mget b k := by
  induction a with
  | nil => rfl
  | cons p rest ih =>
      obtain ⟨k₀, v⟩ := p
      by_cases h : k₀ = k
      · simp [mget, h]
      · simp [mget, h, ih]

theorem mget_mset_self (m : Metadata) (k : String) (v : Value) :
    mget (mset m k v) k = some v := by
  simp [mset, mget_append, mget_mdel_self, mget]

theorem mget_mset_ne (m : Metadata) (k k' : String) (v : Value) (h : k' ≠ k) :
    mget (mset m k v) k' = mget m k' := by
  simp [mset, mget_append, mget_mdel_ne m k k' h, mget, h]
  cases mget m k' <;> simp [mget, h, Ne.symm h]

/-! Shape lemmas for the two operations. -/

/-- Characterizes every successful run of `after_run`: the start key is
popped, the record is appended, the context keeps everything else, and the
result comes back unchanged. -/
theorem after_run_ok_iff (m : Middleware) (c : Context) (result : Option Value)
    (now : Nat) (out : Middleware × Context × Option Value) :
    after_run m c result now = .ok out ↔
      ∃ elapsed, elapsedOf (mget c.metadata "lineage_start_ns") now = .ok elapsed ∧
        out = (⟨m._records ++
                [⟨mget (mdel c.metadata "lineage_start_ns") "lineage_id",
                  c.agent_name, c.method, elapsed, result.isSome⟩]⟩,
               { c with metadata := mdel c.metadata "lineage_start_ns" }, result) := by
  cases he : elapsedOf (mget c.metadata "lineage_start_ns") now with
  | error e =>
      simp [after_run, mpop, he]
  | ok elapsed =>
      simp [after_run, mpop, he]
      exact eq_comm

/-- Keys written by `before_run`, read back, and the untouched fields. -/
theorem before_run_spec (c : Context) (freshId : String) (t0 : Nat) :
    mget (before_run c freshId t0).metadata "lineage_start_ns" = some (.vNat t0) ∧
    mget (before_run c freshId t0).metadata "lineage_id" = some (.vStr freshId) ∧
    mget (before_run c freshId t0).metadata "lineage_agent" = some (.vStr c.agent_name) ∧
    (before_run c freshId t0).agent_name = c.agent_name ∧
    (before_run c freshId t0).method = c.method := by
  refine ⟨?_, ?_, ?_, rfl, rfl⟩
  · simp [before_run, mget_mset_self]
  · rw [before_run]
    rw [mget_mset_ne _ _ _ _ (by decide)]
    rw [mget_mset_ne _ _ _ _ (by decide)]
    exact mget_mset_self _ _ _
  · rw [before_run]
    rw [mget_mset_ne _ _ _ _ (by decide)]
    exact mget_mset_self _ _ _

/-! Claim theorems: pass-through, degraded records, has_result. -/

/-- C1: for every middleware state, context, clock value and result value
(including the null result, modelled as `none`), whenever `after_run`
returns, the value it returns is exactly the `result` it was given,
unchanged. -/
theorem C1_after_run_returns_result_unchanged (m : Middleware) (c : Context)
    (result : Option Value) (now : Nat) (out : Middleware × Context × Option Value)
    (h : after_run m c result now = .ok out) : out.2.2 = result := by
  obtain ⟨e, he, rfl⟩ := (after_run_ok_iff m c result now out).mp h
  rfl

theorem C1_witness :
    ((⟨⟨[⟨none, "a", "run", none, false⟩]⟩, ⟨"a", "run", []⟩, none⟩ :
        Middleware × Context × Option Value)).2.2 = (none : Option Value) :=
  C1_after_run_returns_result_unchanged initMiddleware ⟨"a", "run", []⟩ none 5
    ⟨⟨[⟨none, "a", "run", none, false⟩]⟩, ⟨"a", "run", []⟩, none⟩ (by rfl)

/-- C3: calling `after_run` on a context that never received `before_run`
(its metadata holds neither a `lineage_start_ns` nor a `lineage_id` entry)
does not raise, and still appends a record, whose `elapsed_ms` and
`lineage_id` are both absent. -/
theorem C3_after_without_before_degrades (m : Middleware) (c : Context)
    (result : Option Value) (now : Nat)
    (hstart : mget c.metadata "lineage_start_ns" = none)
    (hid : mget c.metadata "lineage_id" = none) :
    ∃ rec m' c', after_run m c result now = .ok (m', c', result) ∧
      m'._records = m._records ++ [rec] ∧
      rec.elapsed_ms = none ∧ rec.lineage_id = none := by
  have hok : after_run m c result now =
      .ok (⟨m._records ++
            [⟨mget (mdel c.metadata "lineage_start_ns") "lineage_id",
              c.agent_name, c.method, none, result.isSome⟩]⟩,
           { c with metadata := mdel c.metadata "lineage_start_ns" }, result) := by
    rw [after_run_ok_iff]
    exact ⟨none, by rw [hstart]; rfl, rfl⟩
  refine ⟨_, _, _, hok, rfl, rfl, ?_⟩
  show mget (mdel c.metadata "lineage_start_ns") "lineage_id" = none
  rw [mget_mdel_ne _ _ _ (by decide)]
  exact hid

theorem C3_witness :
    ∃ rec m' c',
      after_run initMiddleware ⟨"a", "run", [("foo", Value.vStr "bar")]⟩ none 9 =
        .ok (m', c', none) ∧
      m'._records = initMiddleware._records ++ [rec] ∧
      rec.elapsed_ms = none ∧ rec.lineage_id = none :=
  C3_after_without_before_degrades initMiddleware
    ⟨"a", "run", [("foo", Value.vStr "bar")]⟩ none 9 (by rfl) (by rfl)

/-- C6: the record appended by `after_run` has `has_result` equal to true
if and only if the result argument was non-null. -/
theorem C6_has_result_iff_nonnull (m : Middleware) (c : Context)
    (result : Option Value) (now : Nat) (out : Middleware × Context × Option Value)
    (h : after_run m c result now = .ok out) :
    ∃ rec, out.1._records = m._records ++ [rec] ∧
      (rec.has_result = true ↔ result ≠ none) := by
  obtain ⟨e, he, rfl⟩ := (after_run_ok_iff m c result now out).mp h
  exact ⟨_, rfl, by simp [Option.isSome_iff_ne_none]⟩

theorem C6_witness :
    ∃ rec,
      (⟨[⟨none, "a", "run", none, true⟩]⟩ : Middleware)._records =
        initMiddleware._records ++ [rec] ∧
      (rec.has_result = true ↔ some (Value.vStr "x") ≠ none) :=
  C6_has_result_iff_nonnull initMiddleware ⟨"a", "run", []⟩ (some (.vStr "x")) 5
    ⟨⟨[⟨none, "a", "run", none, true⟩]⟩, ⟨"a", "run", []⟩, some (.vStr "x")⟩ (by rfl)

/-- Run of `after_run` on a context whose metadata holds an integer start
timestamp: the elapsed time is the quotient only when the timestamp is
truthy (nonzero). -/
theorem after_run_with_start (m : Middleware) (c : Context) (result : Option Value)
    (now s : Nat) (hs : mget c.metadata "lineage_start_ns" = some (.vNat s)) :
    after_run m c result now =
      .ok (⟨m._records ++
            [⟨mget (mdel c.metadata "lineage_start_ns") "lineage_id",
              c.agent_name, c.method,
              if s = 0 then none else some (((now : ℚ) - (s : ℚ)) / 1000000),
              result.isSome⟩]⟩,
           { c with metadata := mdel c.metadata "lineage_start_ns" }, result) := by
  rw [after_run_ok_iff]
  refine ⟨_, ?_, rfl⟩
  rw [hs]
  by_cases h : s = 0 <;> simp [elapsedOf, pyTruthy, h]

/-- Run of `after_run` on a context whose metadata has no start timestamp:
no error, and the elapsed time is absent. -/
theorem after_run_no_start (m : Middleware) (c : Context) (result : Option Value)
    (now : Nat) (h : mget c.metadata "lineage_start_ns" = none) :
    after_run m c result now =
      .ok (⟨m._records ++
            [⟨mget (mdel c.metadata "lineage_start_ns") "lineage_id",
              c.agent_name, c.method, none, result.isSome⟩]⟩,
           { c with metadata := mdel c.metadata "lineage_start_ns" }, result) := by
  rw [after_run_ok_iff]
  exact ⟨none, by rw [h]; rfl, rfl⟩

/-- C2 counterexample: a context whose metadata holds the start timestamp 0
has a start timestamp present, yet `after_run` records an absent
`elapsed_ms` — the code tests Python truthiness (`if start_ns`), not
presence, and 0 is falsy. -/
theorem C2_counterexample :
    mget [("lineage_start_ns", Value.vNat 0)] "lineage_start_ns" =
      some (Value.vNat 0) ∧
    after_run initMiddleware ⟨"a", "run", [("lineage_start_ns", Value.vNat 0)]⟩
        none 7 =
      .ok (⟨[⟨none, "a", "run", none, false⟩]⟩, ⟨"a", "run", []⟩, none) :=
  ⟨rfl, rfl⟩

/-- C2 amended: `after_run` always removes the start timestamp from the
context metadata; the appended record's `elapsed_ms` is
`(now - start) / 1e6` whenever a truthy (nonzero) start timestamp was
present, and is absent when the start timestamp was absent or zero. -/
theorem C2_after_run_elapsed (m : Middleware) (c : Context) (result : Option Value)
    (now : Nat) (out : Middleware × Context × Option Value)
    (h : after_run m c result now = .ok out) :
    mget out.2.1.metadata "lineage_start_ns" = none ∧
    ∃ rec, out.1._records = m._records ++ [rec] ∧
      (∀ s : Nat, s ≠ 0 → mget c.metadata "lineage_start_ns" = some (.vNat s) →
        rec.elapsed_ms = some (((now : ℚ) - (s : ℚ)) / 1000000)) ∧
      (mget c.metadata "lineage_start_ns" = none → rec.elapsed_ms = none) ∧
      (mget c.metadata "lineage_start_ns" = some (.vNat 0) → rec.elapsed_ms = none) := by
  obtain ⟨e, he, rfl⟩ := (after_run_ok_iff m c result now out).mp h
  refine ⟨mget_mdel_self _ _, _, rfl, ?_, ?_, ?_⟩
  · intro s hs hmem
    rw [hmem] at he
    simp [elapsedOf, pyTruthy, hs] at he
    show e = _
    rw [← he]
  · intro hmem
    rw [hmem] at he
    simp [elapsedOf] at he
    show e = none
    rw [← he]
  · intro hmem
    rw [hmem] at he
    simp [elapsedOf, pyTruthy] at he
    show e = none
    rw [← he]

theorem C2_witness :
    mget (⟨"a", "run", ([] : Metadata)⟩ : Context).metadata "lineage_start_ns" = none ∧
    ∃ rec,
      (⟨[⟨none, "a", "run", some ((((5 : Nat) : ℚ) - ((2 : Nat) : ℚ)) / 1000000),
          false⟩]⟩ : Middleware)._records =
        initMiddleware._records ++ [rec] ∧
      (∀ s : Nat, s ≠ 0 →
        mget [("lineage_start_ns", Value.vNat 2)] "lineage_start_ns" =
          some (.vNat s) →
        rec.elapsed_ms = some ((((5 : Nat) : ℚ) - ((s : Nat) : ℚ)) / 1000000)) ∧
      (mget [("lineage_start_ns", Value.vNat 2)] "lineage_start_ns" = none →
        rec.elapsed_ms = none) ∧
      (mget [("lineage_start_ns", Value.vNat 2)] "lineage_start_ns" =
          some (.vNat 0) →
        rec.elapsed_ms = none) :=
  C2_after_run_elapsed initMiddleware
    ⟨"a", "run", [("lineage_start_ns", Value.vNat 2)]⟩ none 5
    ⟨⟨[⟨none, "a", "run", some ((((5 : Nat) : ℚ) - ((2 : Nat) : ℚ)) / 1000000),
        false⟩]⟩, ⟨"a", "run", []⟩, none⟩ (by rfl)

/-- C8 counterexample: on a context whose string-keyed metadata maps
`lineage_start_ns` to the truthy string value `"boom"`, `after_run`
raises `TypeError` (the popped value is truthy, so the code evaluates
`time.monotonic_ns() - "boom"`). -/
theorem C8_counterexample :
    after_run initMiddleware
        ⟨"a", "run", [("lineage_start_ns", Value.vStr "boom")]⟩ none 5 =
      .error .typeError :=
  rfl

/-- C8 amended: `before_run` never raises (it is a total function), and
`after_run` never raises on any context whose `lineage_start_ns` metadata
entry is absent, falsy, or holds an integer — in particular on every
fresh context and on every context prepared by `before_run` — with or
without a prior `before_run`, and for any result value; but `after_run`
does raise `TypeError` whenever that entry holds a truthy string, since
the code then subtracts a string from `time.monotonic_ns()`. -/
theorem C8_raise_characterization (m : Middleware) (c : Context)
    (result : Option Value) (now : Nat) :
    ((∀ v, mget c.metadata "lineage_start_ns" = some v →
        (∃ n, v = .vNat n) ∨ pyTruthy v = false) →
      ∃ out, after_run m c result now = .ok out) ∧
    (∀ s : String, mget c.metadata "lineage_start_ns" = some (.vStr s) →
      pyTruthy (.vStr s) = true →
      after_run m c result now = .error .typeError) := by
  constructor
  · intro hstart
    cases hv : mget c.metadata "lineage_start_ns" with
    | none => exact ⟨_, after_run_no_start m c result now hv⟩
    | some v =>
        cases hstart v hv with
        | inl hn =>
            obtain ⟨n, rfl⟩ := hn
            exact ⟨_, after_run_with_start m c result now n hv⟩
        | inr hf =>
            refine ⟨_, (after_run_ok_iff m c result now _).mpr ⟨none, ?_, rfl⟩⟩
            rw [hv]
            simp [elapsedOf, hf]
  · intro s hs htr
    simp [after_run, mpop, hs, elapsedOf, htr]

theorem C8_witness :
    ∃ out,
      after_run initMiddleware
          ⟨"a", "run", [("lineage_start_ns", Value.vNat 3)]⟩ none 5 = .ok out :=
  (C8_raise_characterization initMiddleware
      ⟨"a", "run", [("lineage_start_ns", Value.vNat 3)]⟩ none 5).1
    (fun _ hv => Or.inl ⟨3, (Option.some.inj hv).symm⟩)

/-- C9: `after_run` reads `lineage_id` with `get` and never removes it, so
after a `before_run`/`after_run` pair on a context, a second `after_run`
on the same context appends a second record whose `lineage_id` equals the
first record's (the fresh id from `before_run`) and whose `elapsed_ms` is
absent (the start timestamp was already popped). -/
theorem C9_second_after_keeps_id_drops_elapsed (m : Middleware) (c : Context)
    (freshId : String) (t0 t1 t2 : Nat) (res1 res2 : Option Value) :
    ∃ m1 c1 m2 c2 rec1 rec2,
      after_run m (before_run c freshId t0) res1 t1 = .ok (m1, c1, res1) ∧
      after_run m1 c1 res2 t2 = .ok (m2, c2, res2) ∧
      m2._records = m._records ++ [rec1, rec2] ∧
      rec2.lineage_id = rec1.lineage_id ∧
      rec1.lineage_id = some (.vStr freshId) ∧
      rec2.elapsed_ms = none := by
  obtain ⟨hs, hid, hag, hagent, hmeth⟩ := before_run_spec c freshId t0
  have h1 := after_run_with_start m (before_run c freshId t0) res1 t1 t0 hs
  set cb := before_run c freshId t0 with hcb
  have hid1 : mget (mdel cb.metadata "lineage_start_ns") "lineage_id" =
      some (.vStr freshId) := by
    rw [mget_mdel_ne _ _ _ (by decide)]
    exact hid
  have hs1 : mget (mdel cb.metadata "lineage_start_ns") "lineage_start_ns" = none :=
    mget_mdel_self _ _
  have h2 := after_run_no_start
    (⟨m._records ++
      [⟨mget (mdel cb.metadata "lineage_start_ns") "lineage_id",
        cb.agent_name, cb.method,
        if t0 = 0 then none else some (((t1 : ℚ) - (t0 : ℚ)) / 1000000),
        res1.isSome⟩]⟩ : Middleware)
    ({ cb with metadata := mdel cb.metadata "lineage_start_ns" }) res2 t2 hs1
  refine ⟨_, _, _, _,
    ⟨mget (mdel cb.metadata "lineage_start_ns") "lineage_id", cb.agent_name,
      cb.method,
      if t0 = 0 then none else some (((t1 : ℚ) - (t0 : ℚ)) / 1000000),
      res1.isSome⟩,
    ⟨mget (mdel (mdel cb.metadata "lineage_start_ns") "lineage_start_ns")
        "lineage_id", cb.agent_name, cb.method, none, res2.isSome⟩,
    h1, h2, ?_, ?_, ?_, rfl⟩
  · simp
  · show mget (mdel (mdel cb.metadata "lineage_start_ns") "lineage_start_ns")
        "lineage_id" = mget (mdel cb.metadata "lineage_start_ns") "lineage_id"
    rw [mget_mdel_ne _ _ _ (by decide)]
  · exact hid1

/-- C10: the `lineage_agent` metadata key written by `before_run` is never
read by `after_run`; the appended record's `agent_name` is the context's
agent name at `after_run` time, so if the agent identifier changes between
the phases the record carries the later value while `lineage_agent` keeps
the value stored by `before_run`. -/
theorem C10_agent_name_read_at_after_time (m : Middleware) (c : Context)
    (freshId : String) (t0 t1 : Nat) (newAgent : String) (res : Option Value) :
    ∃ m' c' rec,
      after_run m { before_run c freshId t0 with agent_name := newAgent } res t1 =
        .ok (m', c', res) ∧
      m'._records = m._records ++ [rec] ∧
      rec.agent_name = newAgent ∧
      mget (before_run c freshId t0).metadata "lineage_agent" =
        some (.vStr c.agent_name) ∧
      mget c'.metadata "lineage_agent" = some (.vStr c.agent_name) := by
  obtain ⟨hs, hid, hag, hagent, hmeth⟩ := before_run_spec c freshId t0
  have hs' : mget ({ before_run c freshId t0 with
      agent_name := newAgent } : Context).metadata "lineage_start_ns" =
      some (.vNat t0) := hs
  have h1 := after_run_with_start m
    { before_run c freshId t0 with agent_name := newAgent } res t1 t0 hs'
  refine ⟨_, _, _, h1, rfl, rfl, hag, ?_⟩
  show mget (mdel ({ before_run c freshId t0 with
      agent_name := newAgent } : Context).metadata "lineage_start_ns")
      "lineage_agent" = some (.vStr c.agent_name)
  rw [mget_mdel_ne _ _ _ (by decide)]
  exact hag

/-! Complete before/after pairs, for the uniqueness invariant. -/

/-- One completed invocation: the caller's context, the fresh uuid hex
handed to `before_run`, the two clock readings, and the run's result. -/
structure PairEntry where
  ctx : Context
  freshId : String
  t0 : Nat
  t1 : Nat
  result : Option Value
deriving DecidableEq, Repr

/-- The record that a completed `before_run`/`after_run` pair appends. -/
def pairRec (e : PairEntry) : LineageRecord :=
  ⟨some (.vStr e.freshId), e.ctx.agent_name, e.ctx.method,
    if e.t0 = 0 then none else some (((e.t1 : ℚ) - (e.t0 : ℚ)) / 1000000),
    e.result.isSome⟩

/-- Runs a sequence of completed invocations against one middleware
instance: for each entry, `before_run` on the entry's context and then
`after_run` on the resulting context. -/
def runPairs : Middleware → List PairEntry → Except PyErr Middleware
  | m, [] => .ok m
  | m, e :: rest =>
      match after_run m (before_run e.ctx e.freshId e.t0) e.result e.t1 with
      | .error err => .error err
      | .ok (m', _, _) => runPairs m' rest

/-- A completed pair never raises and appends exactly `pairRec`. -/
theorem after_run_pair (m : Middleware) (e : PairEntry) :
    after_run m (before_run e.ctx e.freshId e.t0) e.result e.t1 =
      .ok (⟨m._records ++ [pairRec e]⟩,
           { before_run e.ctx e.freshId e.t0 with
               metadata := mdel (before_run e.ctx e.freshId e.t0).metadata
                 "lineage_start_ns" }, e.result) := by
  obtain ⟨hs, hid, -, -, -⟩ := before_run_spec e.ctx e.freshId e.t0
  have hid1 : mget (mdel (before_run e.ctx e.freshId e.t0).metadata
      "lineage_start_ns") "lineage_id" = some (.vStr e.freshId) := by
    rw [mget_mdel_ne _ _ _ (by decide)]
    exact hid
  rw [after_run_with_start m (before_run e.ctx e.freshId e.t0) e.result e.t1
    e.t0 hs, hid1]
  rfl

/-- The log after running a sequence of completed pairs is the old log
followed by one `pairRec` per entry, in order. -/
theorem runPairs_records (es : List PairEntry) : ∀ m : Middleware,
    runPairs m es = .ok ⟨m._records ++ es.map pairRec⟩ := by
  induction es with
  | nil => intro m; simp [runPairs]
  | cons e rest ih =>
      intro m
      rw [runPairs, after_run_pair m e]
      simp only []
      rw [ih ⟨m._records ++ [pairRec e]⟩]
      simp

/-- C4: starting from a freshly constructed middleware, for any number of
completed invocations whose generated uuid hex ids are pairwise distinct
(the model of `uuid.uuid4().hex` freshness), no two records in the log
carry the same `lineage_id`. -/
theorem C4_lineage_ids_unique (es : List PairEntry)
    (hids : (es.map PairEntry.freshId).Nodup) :
    ∃ m', runPairs initMiddleware es = .ok m' ∧
      (m'._records.map LineageRecord.lineage_id).Nodup := by
  refine ⟨_, runPairs_records es initMiddleware, ?_⟩
  have hmm : (es.map pairRec).map LineageRecord.lineage_id =
      (es.map PairEntry.freshId).map (fun s => some (Value.vStr s)) := by
    simp only [List.map_map]
    rfl
  have hinj : Function.Injective (fun s : String => some (Value.vStr s)) := by
    intro a b h
    simpa using h
  show (((initMiddleware._records ++ es.map pairRec)).map
    LineageRecord.lineage_id).Nodup
  simp only [initMiddleware, List.nil_append, hmm]
  exact hids.map hinj

theorem C4_witness :
    ((([⟨⟨"a1", "run", []⟩, "id1", 1, 2, none⟩,
        ⟨⟨"a2", "run", []⟩, "id2", 3, 4, some (.vStr "r")⟩] :
          List PairEntry).map PairEntry.freshId).Nodup) ∧
    ∃ m',
      runPairs initMiddleware
        [⟨⟨"a1", "run", []⟩, "id1", 1, 2, none⟩,
         ⟨⟨"a2", "run", []⟩, "id2", 3, 4, some (.vStr "r")⟩] = .ok m' ∧
      (m'._records.map LineageRecord.lineage_id).Nodup :=
  ⟨by decide, C4_lineage_ids_unique
    [⟨⟨"a1", "run", []⟩, "id1", 1, 2, none⟩,
     ⟨⟨"a2", "run", []⟩, "id2", 3, 4, some (.vStr "r")⟩] (by decide)⟩

/-! Interleaved traces over many caller-owned contexts, for the log shape. -/

/-- The whole system: the recorder plus the caller-owned contexts (indexed
positionally; each invocation owns one). -/
structure Sys where
  mw : Middleware
  ctxs : List Context
deriving DecidableEq, Repr

/-- A hook call performed by the agent runtime on one of the contexts. -/
inductive Op where
  | opBefore (i : Nat) (freshId : String) (now : Nat)
  | opAfter (i : Nat) (result : Option Value) (now : Nat)
deriving DecidableEq, Repr

/-- Placeholder context used for an out-of-range index. -/
def defaultCtx : Context := ⟨"", "", []⟩

/-- One hook call: `before_run` only mutates the addressed context;
`after_run` also updates the recorder and can raise. -/
def step (s : Sys) : Op → Except PyErr Sys
  | .opBefore i freshId now =>
      .ok ⟨s.mw, s.ctxs.set i (before_run (s.ctxs.getD i defaultCtx) freshId now)⟩
  | .opAfter i result now =>
      match after_run s.mw (s.ctxs.getD i defaultCtx) result now with
      | .error e => .error e
      | .ok (m', c', _) => .ok ⟨m', s.ctxs.set i c'⟩

/-- Runs a trace of hook calls, stopping at the first raised error. -/
def execTrace : Sys → List Op → Except PyErr Sys
  | s, [] => .ok s
  | s, op :: rest =>
      match step s op with
      | .error e => .error e
      | .ok s' => execTrace s' rest

/-- Number of completed `after_run` calls in a trace. -/
def countAfter : List Op → Nat
  | [] => 0
  | .opBefore _ _ _ :: rest => countAfter rest
  | .opAfter _ _ _ :: rest => countAfter rest + 1

/-- Relates a trace to the list of records its completed `after_run`
calls emit, in completion order: one record per completed `after_run`,
carrying the lineage id, agent name, method and result flag of the very
context/result that this call was given, read at the moment the call
completed; `before_run` calls contribute no record. -/
inductive MatchesAfters : Sys → List Op → List LineageRecord → Prop where
  | nil (s : Sys) : MatchesAfters s [] []
  | stepBefore {s s₁ : Sys} {rest : List Op} {recs : List LineageRecord}
      (i : Nat) (freshId : String) (now : Nat)
      (hstep : step s (.opBefore i freshId now) = .ok s₁)
      (h : MatchesAfters s₁ rest recs) :
      MatchesAfters s (.opBefore i freshId now :: rest) recs
  | stepAfter {s s₁ : Sys} {rest : List Op} {recs : List LineageRecord}
      (i : Nat) (result : Option Value) (now : Nat) (rec : LineageRecord)
      (hstep : step s (.opAfter i result now) = .ok s₁)
      (hid : rec.lineage_id = mget (s.ctxs.getD i defaultCtx).metadata "lineage_id")
      (hag : rec.agent_name = (s.ctxs.getD i defaultCtx).agent_name)
      (hme : rec.method = (s.ctxs.getD i defaultCtx).method)
      (hres : rec.has_result = result.isSome)
      (h : MatchesAfters s₁ rest recs) :
      MatchesAfters s (.opAfter i result now :: rest) (rec :: recs)

/-- C5: over any completed trace of hook calls, the final log is the
initial log followed by a list `ems` holding exactly one record per
completed `after_run`, positioned in the order those `after_run` calls
completed and built (per `MatchesAfters`) from the context and result of
its own call; in particular, for N completed before/after pairs the log
has length exactly N, and a `before_run` with no matching `after_run`
contributes nothing. -/
theorem C5_log_in_after_completion_order (ops : List Op) : ∀ s s',
    execTrace s ops = .ok s' →
    ∃ ems, s'.mw._records = s.mw._records ++ ems ∧
      ems.length = countAfter ops ∧ MatchesAfters s ops ems := by
  induction ops with
  | nil =>
      intro s s' h
      simp only [execTrace] at h
      cases h
      exact ⟨[], by simp, rfl, MatchesAfters.nil s⟩
  | cons op rest ih =>
      intro s s' h
      simp only [execTrace] at h
      cases hstep : step s op with
      | error e => rw [hstep] at h; cases h
      | ok s1 =>
          rw [hstep] at h
          obtain ⟨ems, hrec, hlen, hmatch⟩ := ih s1 s' h
          cases op with
          | opBefore i freshId now =>
              have hmw : s1.mw = s.mw := by
                have hstep2 := hstep
                simp only [step] at hstep2
                cases hstep2
                rfl
              exact ⟨ems, by rw [hrec, hmw], hlen,
                MatchesAfters.stepBefore i freshId now hstep hmatch⟩
          | opAfter i result now =>
              have hstep2 := hstep
              simp only [step] at hstep2
              cases hafter : after_run s.mw (s.ctxs.getD i defaultCtx) result now with
              | error e => rw [hafter] at hstep2; cases hstep2
              | ok out =>
                  rw [hafter] at hstep2
                  obtain ⟨e, he, hout⟩ :=
                    (after_run_ok_iff _ _ _ _ _).mp hafter
                  obtain ⟨m', c', r'⟩ := out
                  cases hstep2
                  have hm' : m'._records = s.mw._records ++
                      [⟨mget (mdel (s.ctxs.getD i defaultCtx).metadata
                          "lineage_start_ns") "lineage_id",
                        (s.ctxs.getD i defaultCtx).agent_name,
                        (s.ctxs.getD i defaultCtx).method, e, result.isSome⟩] := by
                    have h1 := congrArg
                      (fun p : Middleware × Context × Option Value => p.1._records)
                      hout
                    simpa using h1
                  refine ⟨⟨mget (mdel (s.ctxs.getD i defaultCtx).metadata
                      "lineage_start_ns") "lineage_id",
                    (s.ctxs.getD i defaultCtx).agent_name,
                    (s.ctxs.getD i defaultCtx).method, e,
                    result.isSome⟩ :: ems, ?_, by simp [countAfter, hlen], ?_⟩
                  · rw [hrec]
                    show m'._records ++ ems = _
                    rw [hm']
                    simp
                  · exact MatchesAfters.stepAfter i result now _ hstep
                      (mget_mdel_ne _ _ _ (by decide)) rfl rfl rfl hmatch

theorem C5_witness :
    ∃ ems,
      (⟨⟨[⟨some (.vStr "i0"), "a", "run",
            some ((((2 : Nat) : ℚ) - ((1 : Nat) : ℚ)) / 1000000), false⟩]⟩,
          [⟨"a", "run", [("lineage_id", Value.vStr "i1"),
            ("lineage_agent", Value.vStr "a"),
            ("lineage_start_ns", Value.vNat 3)]⟩]⟩ : Sys).mw._records =
        (⟨initMiddleware, [⟨"a", "run", []⟩]⟩ : Sys).mw._records ++ ems ∧
      ems.length =
        countAfter [.opBefore 0 "i0" 1, .opAfter 0 none 2, .opBefore 0 "i1" 3] ∧
      MatchesAfters ⟨initMiddleware, [⟨"a", "run", []⟩]⟩
        [.opBefore 0 "i0" 1, .opAfter 0 none 2, .opBefore 0 "i1" 3] ems :=
  C5_log_in_after_completion_order
    [.opBefore 0 "i0" 1, .opAfter 0 none 2, .opBefore 0 "i1" 3]
    ⟨initMiddleware, [⟨"a", "run", []⟩]⟩
    ⟨⟨[⟨some (.vStr "i0"), "a", "run",
        some ((((2 : Nat) : ℚ) - ((1 : Nat) : ℚ)) / 1000000), false⟩]⟩,
      [⟨"a", "run", [("lineage_id", Value.vStr "i1"),
        ("lineage_agent", Value.vStr "a"),
        ("lineage_start_ns", Value.vNat 3)]⟩]⟩ (by rfl)

/-! Heap-level model for the snapshot claim: list objects live in a heap
of references, so Python aliasing and in-place mutation are explicit. -/

/-- A heap of Python list objects, addressed by reference. -/
structure Heap where
  lists : Nat → List LineageRecord
  next : Nat

/-- Reads the contents of a list object. -/
def hGet (h : Heap) (r : Nat) : List LineageRecord := h.lists r

/-- Overwrites the contents of a list object in place. -/
def hSet (h : Heap) (r : Nat) (xs : List LineageRecord) : Heap :=
  ⟨fun i => if i = r then xs else h.lists i, h.next⟩

/-- Allocates a fresh list object with the given contents. -/
def hAlloc (h : Heap) (xs : List LineageRecord) : Heap × Nat :=
  (⟨fun i => if i = h.next then xs else h.lists i, h.next + 1⟩, h.next)

/-- The `records` property at heap level: `return list(self._records)`
allocates a fresh list object holding the current contents of
`self._records` and returns a reference to it. -/
def records_snapshot (h : Heap) (self : Nat) : Heap × Nat :=
  hAlloc h (hGet h self)

/-- The append in `after_run` at heap level:
`self._records.append(record)` mutates the internal list in place. -/
def records_append (h : Heap) (self : Nat) (rec : LineageRecord) : Heap :=
  hSet h self (hGet h self ++ [rec])

/-- A caller mutating a list object it holds, e.g. a returned snapshot. -/
def list_mutate (h : Heap) (r : Nat)
    (f : List LineageRecord → List LineageRecord) : Heap :=
  hSet h r (f (hGet h r))

/-- C7: `records` returns an independent snapshot.  The snapshot is a
fresh list object distinct from the internal log; its contents equal the
log at the time of the call; an append performed by a later `after_run`
never appears in the snapshot; and mutating the snapshot arbitrarily
never affects the internal log, including records subsequently appended
to it. -/
theorem C7_records_snapshot_independent (h : Heap) (self : Nat)
    (hwf : self < h.next) (rec : LineageRecord)
    (f : List LineageRecord → List LineageRecord) :
    (records_snapshot h self).2 ≠ self ∧
    hGet (records_snapshot h self).1 (records_snapshot h self).2 = hGet h self ∧
    hGet (records_append (records_snapshot h self).1 self rec)
      (records_snapshot h self).2 = hGet h self ∧
    hGet (list_mutate (records_snapshot h self).1 (records_snapshot h self).2 f)
      self = hGet h self ∧
    hGet (records_append
        (list_mutate (records_snapshot h self).1 (records_snapshot h self).2 f)
        self rec) self = hGet h self ++ [rec] := by
  have hne : h.next ≠ self := Ne.symm (Nat.ne_of_lt hwf)
  refine ⟨hne, ?_, ?_, ?_, ?_⟩ <;>
    simp [records_snapshot, records_append, list_mutate, hAlloc, hGet, hSet, hne,
      Ne.symm hne]

theorem C7_witness :
    0 < (⟨fun _ => [], 1⟩ : Heap).next ∧
    ((records_snapshot ⟨fun _ => [], 1⟩ 0).2 ≠ 0 ∧
     hGet (records_snapshot ⟨fun _ => [], 1⟩ 0).1
       (records_snapshot ⟨fun _ => [], 1⟩ 0).2 = hGet ⟨fun _ => [], 1⟩ 0 ∧
     hGet (records_append (records_snapshot ⟨fun _ => [], 1⟩ 0).1 0
         ⟨none, "a", "run", none, false⟩)
       (records_snapshot ⟨fun _ => [], 1⟩ 0).2 = hGet ⟨fun _ => [], 1⟩ 0 ∧
     hGet (list_mutate (records_snapshot ⟨fun _ => [], 1⟩ 0).1
         (records_snapshot ⟨fun _ => [], 1⟩ 0).2
         (fun _ => [⟨none, "b", "x", none, true⟩])) 0 = hGet ⟨fun _ => [], 1⟩ 0 ∧
     hGet (records_append
         (list_mutate (records_snapshot ⟨fun _ => [], 1⟩ 0).1
           (records_snapshot ⟨fun _ => [], 1⟩ 0).2
           (fun _ => [⟨none, "b", "x", none, true⟩])) 0
         ⟨none, "a", "run", none, false⟩) 0 =
       hGet ⟨fun _ => [], 1⟩ 0 ++ [⟨none, "a", "run", none, false⟩]) :=
  ⟨Nat.zero_lt_one,
   C7_records_snapshot_independent ⟨fun _ => [], 1⟩ 0 Nat.zero_lt_one
     ⟨none, "a", "run", none, false⟩ (fun _ => [⟨none, "b", "x", none, true⟩])⟩
